import Mathlib

/-!
Shallow embedding of the `more_collections` hybrid small-map container
(src/src/small_map.rs and src/src/small_set.rs).

The map is a tagged union over an inline buffer (SmallVec, modelled as a
`List` of pairs) and a heap-backed insertion-ordered hash map
(`FastIndexMap`, an alias of `indexmap::IndexMap`, modelled as a `List` of
pairs with the index-map insert/lookup semantics).  All operations are
translated arm by arm from the Rust source.
-/

/-- Association-list lookup in insertion order.  Renders the inline arm of
`SmallMap::get` (`vec.iter().find(|(k, _v)| k == key)`, src/src/small_map.rs
lines 117-122) and `IndexMap::get` of the heap arm, which both return the
value of the first (and only) pair whose key equals the probe. -/
def imGet {K V : Type} [DecidableEq K] : List (K × V) → K → Option V
  | [], _ => none
  | (k', v') :: rest, k => if k' = k then some v' else imGet rest k

/-- Position of a key in insertion order.  Renders the inline arm of
`SmallMap::get_index_of` (`vec.iter().position(|(k, _v)| key.equivalent(k))`,
src/src/small_map.rs lines 174-182) and `IndexMap::get_index_of` of the heap
arm. -/
def imGetIndexOf {K V : Type} [DecidableEq K] : List (K × V) → K → Option Nat
  | [], _ => none
  | (k', _) :: rest, k =>
    if k' = k then some 0 else (imGetIndexOf rest k).map (· + 1)

/-- Add-or-update of the heap structure (`IndexMap::insert`, used by the
heap arm and the overflow arm of `SmallMap::insert`): if an equivalent key
is present, the stored key keeps its place, its value is updated and the
previous value is returned; otherwise the pair is appended at the end. -/
def imInsert {K V : Type} [DecidableEq K] :
    List (K × V) → K → V → List (K × V) × Option V
  | [], k, v => ([(k, v)], none)
  | (k', v') :: rest, k, v =>
    if k' = k then ((k', v) :: rest, some v')
    else
      let r := imInsert rest k v
      ((k', v') :: r.1, r.2)

/-- `collect::<FastIndexMap<_, _>>()` over a drained sequence of pairs
(src/src/small_map.rs line 214): `FromIterator` inserts each pair in
order into an initially empty index map. -/
def imFromList {K V : Type} [DecidableEq K] (l : List (K × V)) : List (K × V) :=
  l.foldl (fun m p => (imInsert m p.1 p.2).1) []

/-- The non-overflow inline arm of `SmallMap::insert`
(src/src/small_map.rs lines 219-226): `position` of an existing key,
then `mem::replace` of that slot with `(key, value)` returning the old
value, else `push` at the end. -/
def svInsert {K V : Type} [DecidableEq K] :
    List (K × V) → K → V → List (K × V) × Option V
  | [], k, v => ([(k, v)], none)
  | (k', v') :: rest, k, v =>
    if k = k' then ((k, v) :: rest, some v')
    else
      let r := svInsert rest k v
      ((k', v') :: r.1, r.2)

/-- The two representations of `SmallMap` (src/src/small_map.rs lines
48-52): an inline `SmallVec` of pairs or a heap `FastIndexMap`. -/
inductive MapData (K V : Type) where
  | Inline : List (K × V) → MapData K V
  | Heap : List (K × V) → MapData K V
deriving DecidableEq

/-- `SmallMap<K, V, C>` (src/src/small_map.rs lines 43-46). -/
structure SmallMap (K V : Type) (C : Nat) where
  data : MapData K V
deriving DecidableEq

/-- `SmallMap::len` (src/src/small_map.rs lines 61-66). -/
def SmallMap.len {K V : Type} {C : Nat} (m : SmallMap K V C) : Nat :=
  match m.data with
  | MapData.Inline sv => sv.length
  | MapData.Heap h => h.length

/-- `SmallMap::is_inline` (src/src/small_map.rs lines 76-78). -/
def SmallMap.is_inline {K V : Type} {C : Nat} (m : SmallMap K V C) : Bool :=
  match m.data with
  | MapData.Inline _ => true
  | MapData.Heap _ => false

/-- `SmallMap::inline_capacity` (src/src/small_map.rs lines 70-72). -/
def SmallMap.inline_capacity {K V : Type} {C : Nat} (_ : SmallMap K V C) : Nat :=
  C

/-- `SmallMap::iter` in insertion order (src/src/small_map.rs lines 81-86),
as the list of pairs the iterator yields. -/
def SmallMap.iter {K V : Type} {C : Nat} (m : SmallMap K V C) : List (K × V) :=
  match m.data with
  | MapData.Inline sv => sv
  | MapData.Heap h => h

/-- The keys of the map in iteration order. -/
def SmallMap.keys {K V : Type} {C : Nat} (m : SmallMap K V C) : List K :=
  m.iter.map Prod.fst

/-- `SmallMap::get` (src/src/small_map.rs lines 117-122). -/
def SmallMap.get {K V : Type} [DecidableEq K] {C : Nat}
    (m : SmallMap K V C) (key : K) : Option V :=
  match m.data with
  | MapData.Inline sv => imGet sv key
  | MapData.Heap h => imGet h key

/-- `SmallMap::get_index` (src/src/small_map.rs lines 140-151): the inline
arm guards with `index < self.len()` before indexing, the heap arm
delegates to `IndexMap::get_index`. -/
def SmallMap.get_index {K V : Type} {C : Nat}
    (m : SmallMap K V C) (i : Nat) : Option (K × V) :=
  match m.data with
  | MapData.Inline sv => if i < sv.length then sv.get? i else none
  | MapData.Heap h => h.get? i

/-- `SmallMap::get_index_of` (src/src/small_map.rs lines 174-182). -/
def SmallMap.get_index_of {K V : Type} [DecidableEq K] {C : Nat}
    (m : SmallMap K V C) (key : K) : Option Nat :=
  match m.data with
  | MapData.Inline sv => imGetIndexOf sv key
  | MapData.Heap h => imGetIndexOf h key

/-- `SmallMap::new` (src/src/small_map.rs lines 101-109): an empty map in
the Inline state. -/
def SmallMap.new (K V : Type) (C : Nat) : SmallMap K V C :=
  ⟨MapData.Inline []⟩

/-- `SmallMap::insert` (src/src/small_map.rs lines 209-231).  The inline
arm first tests `sv.len() + 1 > C`; on overflow it drains the buffer in
order into a freshly collected `FastIndexMap`, inserts the new pair there
and replaces the state with the heap structure; otherwise it updates an
existing slot in place or pushes at the end.  The heap arm delegates to
`IndexMap::insert`. -/
def SmallMap.insert {K V : Type} [DecidableEq K] {C : Nat}
    (m : SmallMap K V C) (key : K) (value : V) : SmallMap K V C × Option V :=
  match m.data with
  | MapData.Inline sv =>
    if sv.length + 1 > C then
      let r := imInsert (imFromList sv) key value
      (⟨MapData.Heap r.1⟩, r.2)
    else
      let r := svInsert sv key value
      (⟨MapData.Inline r.1⟩, r.2)
  | MapData.Heap h =>
    let r := imInsert h key value
    (⟨MapData.Heap r.1⟩, r.2)

/-- A sequence of `insert` calls, first pair first. -/
def SmallMap.insertAll {K V : Type} [DecidableEq K] {C : Nat}
    (m : SmallMap K V C) (l : List (K × V)) : SmallMap K V C :=
  l.foldl (fun acc p => (acc.insert p.1 p.2).1) m

/-- `IndexMap::eq` (the `PartialEq` of the heap structure): equal lengths
and every pair of the left map found with the same value in the right. -/
def imEq {K V : Type} [DecidableEq K] [DecidableEq V]
    (l r : List (K × V)) : Bool :=
  decide (l.length = r.length) && l.all (fun p => decide (imGet r p.1 = some p.2))

/-- `PartialEq for MapData` (src/src/small_map.rs lines 256-269): a match
on the pair of tags, `SmallVec` element-wise equality on two Inline values,
`IndexMap` equality on two Heap values, `false` on mixed tags. -/
def MapData.beqData {K V : Type} [DecidableEq K] [DecidableEq V] :
    MapData K V → MapData K V → Bool
  | MapData.Inline l, MapData.Inline r => decide (l = r)
  | MapData.Heap l, MapData.Heap r => imEq l r
  | _, _ => false

/-- `PartialEq for SmallMap` (src/src/small_map.rs lines 240-248):
compares the inner `MapData` values. -/
def SmallMap.beq {K V : Type} [DecidableEq K] [DecidableEq V] {C : Nat}
    (m₁ m₂ : SmallMap K V C) : Bool :=
  MapData.beqData m₁.data m₂.data

/-- `Index<usize> for SmallMap` (src/src/small_map.rs lines 295-307):
`get_index(i).expect("SmallMap: index out of bounds").1`; the `none`
result models the panic on an out-of-bounds position. -/
def SmallMap.indexOp {K V : Type} {C : Nat}
    (m : SmallMap K V C) (i : Nat) : Option V :=
  (m.get_index i).map Prod.snd

/-- Replace the value of the pair at index `i` by `f` of it, leaving the
rest of the list untouched (the effect of writing through the mutable
reference handed out by `get_index_mut`). -/
def modifyIdx {K V : Type} (f : V → V) : List (K × V) → Nat → List (K × V)
  | [], _ => []
  | p :: rest, 0 => (p.1, f p.2) :: rest
  | p :: rest, n + 1 => p :: modifyIdx f rest n

/-- `SmallMap::get_index_mut` (src/src/small_map.rs lines 156-167) as a
functional update: `some` of the map with the value at `i` replaced by `f`
of it when `i` is in bounds (the inline arm guards with
`index < vec.len()`, the heap arm delegates to `IndexMap::get_index_mut`),
`none` — the `None` return — otherwise. -/
def SmallMap.get_index_modify {K V : Type} {C : Nat}
    (m : SmallMap K V C) (i : Nat) (f : V → V) : Option (SmallMap K V C) :=
  match m.data with
  | MapData.Inline sv =>
    if i < sv.length then some ⟨MapData.Inline (modifyIdx f sv i)⟩ else none
  | MapData.Heap h =>
    if i < h.length then some ⟨MapData.Heap (modifyIdx f h i)⟩ else none

/-- The entry handle (src/src/small_map.rs lines 384-391): the found index
for an occupied entry or the looked-up key for a vacant one.  The mutable
borrow of the map that the Rust handle carries is passed explicitly to the
operations below. -/
inductive Entry (K V : Type) where
  | Occupied : Nat → Entry K V
  | Vacant : K → Entry K V
deriving DecidableEq

/-- `SmallMap::entry` (src/src/small_map.rs lines 189-195): one
`get_index_of` lookup, then Occupied with the found index or Vacant with
the key. -/
def SmallMap.entry {K V : Type} [DecidableEq K] {C : Nat}
    (m : SmallMap K V C) (key : K) : Entry K V :=
  match m.get_index_of key with
  | some i => Entry.Occupied i
  | none => Entry.Vacant key

/-- `Entry::and_modify` (src/src/small_map.rs lines 398-409): on Occupied,
apply `f` through `get_index_mut(index)` (the `unwrap` panic on a missing
index is modelled by `none`) and return an Occupied handle with the same
index; on Vacant, return map and handle untouched. -/
def Entry.and_modify {K V : Type} {C : Nat}
    (m : SmallMap K V C) (e : Entry K V) (f : V → V) :
    Option (SmallMap K V C × Entry K V) :=
  match e with
  | Entry.Occupied i =>
    (m.get_index_modify i f).map (fun m2 => (m2, Entry.Occupied i))
  | Entry.Vacant k => some (m, Entry.Vacant k)

/-- `Entry::or_insert` (src/src/small_map.rs lines 413-417): on Vacant,
one `insert(key, default)` against the underlying map; on Occupied, a
no-op. -/
def Entry.or_insert {K V : Type} [DecidableEq K] {C : Nat}
    (m : SmallMap K V C) (e : Entry K V) (default : V) : SmallMap K V C :=
  match e with
  | Entry.Vacant key => (m.insert key default).1
  | Entry.Occupied _ => m

/-- The `smallset!` literal (src/src/small_set.rs lines 167-172, which
expands to `smallmap!`, src/src/small_map.rs lines 424-438) in its
`count <= map.inline_capacity()` branch: ordinary `insert` calls of each
value with the unit value into a freshly created map. -/
def smallsetLitGeneral {K : Type} [DecidableEq K] (C : Nat) (xs : List K) :
    SmallMap K Unit C :=
  (SmallMap.new K Unit C).insertAll (xs.map (fun x => (x, ())))

/-- The `smallset_inline!` literal (src/src/small_set.rs lines 176-190):
builds the inline vector of `(value, ())` pairs and `debug_assert_eq!`s its
length against the number of distinct values; `none` models the assertion
failure on a duplicate value. -/
def smallsetLitInline {K : Type} [DecidableEq K] (xs : List K) :
    Option (SmallMap K Unit xs.length) :=
  if xs.length = xs.dedup.length then
    some ⟨MapData.Inline (xs.map (fun x => (x, ())))⟩
  else none

/-! Basic lemmas about the list-level operations. -/

theorem imGet_eq_none_of_fresh {K V : Type} [DecidableEq K]
    {l : List (K × V)} {k : K} (h : k ∉ l.map Prod.fst) :
    imGet l k = none := by
  induction l with
  | nil => rfl
  | cons p t ih =>
    simp only [List.map_cons, List.mem_cons] at h
    push_neg at h
    simp only [imGet]
    rw [if_neg (fun hk => h.1 hk.symm)]
    exact ih h.2

theorem imInsert_fresh {K V : Type} [DecidableEq K]
    {l : List (K × V)} {k : K} (v : V) (h : k ∉ l.map Prod.fst) :
    imInsert l k v = (l ++ [(k, v)], none) := by
  induction l with
  | nil => rfl
  | cons p t ih =>
    simp only [List.map_cons, List.mem_cons] at h
    push_neg at h
    obtain ⟨p1, p2⟩ := p
    have hne : ¬ p1 = k := fun hk => h.1 hk.symm
    simp [imInsert, hne, ih h.2]

theorem svInsert_fresh {K V : Type} [DecidableEq K]
    {l : List (K × V)} {k : K} (v : V) (h : k ∉ l.map Prod.fst) :
    svInsert l k v = (l ++ [(k, v)], none) := by
  induction l with
  | nil => rfl
  | cons p t ih =>
    simp only [List.map_cons, List.mem_cons] at h
    push_neg at h
    obtain ⟨p1, p2⟩ := p
    simp [svInsert, h.1, ih h.2]

theorem imGet_imInsert_self {K V : Type} [DecidableEq K]
    (l : List (K × V)) (k : K) (v : V) :
    imGet (imInsert l k v).1 k = some v := by
  induction l with
  | nil => simp [imInsert, imGet]
  | cons p t ih =>
    obtain ⟨p1, p2⟩ := p
    by_cases hk : p1 = k
    · simp [imInsert, imGet, hk]
    · simp only [imInsert, if_neg hk]
      simp only [imGet, if_neg hk]
      exact ih

theorem imGet_svInsert_self {K V : Type} [DecidableEq K]
    (l : List (K × V)) (k : K) (v : V) :
    imGet (svInsert l k v).1 k = some v := by
  induction l with
  | nil => simp [svInsert, imGet]
  | cons p t ih =>
    obtain ⟨p1, p2⟩ := p
    by_cases hk : k = p1
    · simp [svInsert, imGet, hk]
    · have hne : ¬ p1 = k := fun hh => hk hh.symm
      simpa [svInsert, hk, imGet, hne] using ih

theorem imInsert_found {K V : Type} [DecidableEq K]
    {l : List (K × V)} {k : K} {v₀ : V} (v : V) (h : imGet l k = some v₀) :
    (imInsert l k v).2 = some v₀ ∧
    (imInsert l k v).1.length = l.length ∧
    imGetIndexOf (imInsert l k v).1 k = imGetIndexOf l k := by
  induction l with
  | nil => simp [imGet] at h
  | cons p t ih =>
    obtain ⟨p1, p2⟩ := p
    by_cases hk : p1 = k
    · simp only [imGet, if_pos hk] at h
      simp [imInsert, imGetIndexOf, hk, h]
    · simp only [imGet, if_neg hk] at h
      obtain ⟨h1, h2, h3⟩ := ih h
      simp only [imInsert, if_neg hk]
      refine ⟨h1, by simpa using h2, ?_⟩
      simp only [imGetIndexOf, if_neg hk]
      rw [h3]

theorem svInsert_found {K V : Type} [DecidableEq K]
    {l : List (K × V)} {k : K} {v₀ : V} (v : V) (h : imGet l k = some v₀) :
    (svInsert l k v).2 = some v₀ ∧
    (svInsert l k v).1.length = l.length ∧
    imGetIndexOf (svInsert l k v).1 k = imGetIndexOf l k := by
  induction l with
  | nil => simp [imGet] at h
  | cons p t ih =>
    obtain ⟨p1, p2⟩ := p
    by_cases hk : p1 = k
    · subst hk
      simp only [imGet, if_true, eq_self_iff_true, if_pos, Option.some.injEq] at h
      simp [svInsert, imGetIndexOf, h]
    · have hne : ¬ k = p1 := fun hh => hk hh.symm
      simp only [imGet, if_neg hk] at h
      obtain ⟨h1, h2, h3⟩ := ih h
      simp only [svInsert, if_neg hne]
      refine ⟨by simpa using h1, by simpa using h2, ?_⟩
      simp only [imGetIndexOf, if_neg hk]
      simp [h3]

/-! Lemmas about `SmallMap.insert` and sequences of inserts. -/

theorem insertAll_nil {K V : Type} [DecidableEq K] {C : Nat}
    (m : SmallMap K V C) : m.insertAll [] = m := rfl

theorem insertAll_cons {K V : Type} [DecidableEq K] {C : Nat}
    (m : SmallMap K V C) (p : K × V) (l : List (K × V)) :
    m.insertAll (p :: l) = ((m.insert p.1 p.2).1).insertAll l := rfl

theorem insertAll_append {K V : Type} [DecidableEq K] {C : Nat}
    (m : SmallMap K V C) (a b : List (K × V)) :
    m.insertAll (a ++ b) = (m.insertAll a).insertAll b := by
  simp [SmallMap.insertAll, List.foldl_append]

theorem insert_inline_no_overflow {K V : Type} [DecidableEq K] {C : Nat}
    (sv : List (K × V)) (k : K) (v : V) (hle : sv.length + 1 ≤ C) :
    SmallMap.insert (C := C) ⟨MapData.Inline sv⟩ k v =
      (⟨MapData.Inline (svInsert sv k v).1⟩, (svInsert sv k v).2) := by
  simp only [SmallMap.insert]
  rw [if_neg (by omega)]

theorem insert_inline_overflow {K V : Type} [DecidableEq K] {C : Nat}
    (sv : List (K × V)) (k : K) (v : V) (hgt : C < sv.length + 1) :
    SmallMap.insert (C := C) ⟨MapData.Inline sv⟩ k v =
      (⟨MapData.Heap (imInsert (imFromList sv) k v).1⟩,
        (imInsert (imFromList sv) k v).2) := by
  simp only [SmallMap.insert]
  rw [if_pos (by omega)]

theorem insert_heap {K V : Type} [DecidableEq K] {C : Nat}
    (h : List (K × V)) (k : K) (v : V) :
    SmallMap.insert (C := C) ⟨MapData.Heap h⟩ k v =
      (⟨MapData.Heap (imInsert h k v).1⟩, (imInsert h k v).2) := rfl

theorem imFromList_aux {K V : Type} [DecidableEq K] :
    ∀ (l acc : List (K × V)),
      (acc.map Prod.fst ++ l.map Prod.fst).Nodup →
      l.foldl (fun m p => (imInsert m p.1 p.2).1) acc = acc ++ l := by
  intro l
  induction l with
  | nil => intro acc _; simp
  | cons p t ih =>
    intro acc hnd
    obtain ⟨p1, p2⟩ := p
    have hfresh : p1 ∉ acc.map Prod.fst := by
      simp only [List.map_cons, List.nodup_append, List.nodup_cons,
        List.disjoint_left] at hnd
      intro hmem
      exact hnd.2.2 hmem (by simp)
    have hstep : imInsert acc p1 p2 = (acc ++ [(p1, p2)], none) :=
      imInsert_fresh p2 hfresh
    simp only [List.foldl_cons, hstep]
    have hnd2 : ((acc ++ [(p1, p2)]).map Prod.fst ++ t.map Prod.fst).Nodup := by
      simp only [List.map_append, List.map_cons, List.map_nil] at hnd ⊢
      simpa [List.append_assoc] using hnd
    rw [ih (acc ++ [(p1, p2)]) hnd2]
    simp

theorem imFromList_nodup {K V : Type} [DecidableEq K]
    (l : List (K × V)) (h : (l.map Prod.fst).Nodup) :
    imFromList l = l := by
  have := imFromList_aux l [] (by simpa using h)
  simpa [imFromList] using this

theorem insertAll_inline_fresh {K V : Type} [DecidableEq K] {C : Nat} :
    ∀ (l sv : List (K × V)),
      (sv.map Prod.fst ++ l.map Prod.fst).Nodup →
      sv.length + l.length ≤ C →
      SmallMap.insertAll (C := C) ⟨MapData.Inline sv⟩ l = ⟨MapData.Inline (sv ++ l)⟩ := by
  intro l
  induction l with
  | nil => intro sv _ _; simp [insertAll_nil]
  | cons p t ih =>
    intro sv hnd hlen
    obtain ⟨p1, p2⟩ := p
    have hfresh : p1 ∉ sv.map Prod.fst := by
      simp only [List.map_cons, List.nodup_append, List.nodup_cons,
        List.disjoint_left] at hnd
      intro hmem
      exact hnd.2.2 hmem (by simp)
    rw [insertAll_cons]
    rw [insert_inline_no_overflow sv p1 p2 (by simp at hlen; omega)]
    rw [svInsert_fresh p2 hfresh]
    have hnd2 : ((sv ++ [(p1, p2)]).map Prod.fst ++ t.map Prod.fst).Nodup := by
      simp only [List.map_append, List.map_cons, List.map_nil] at hnd ⊢
      simpa [List.append_assoc] using hnd
    have hlen2 : (sv ++ [(p1, p2)]).length + t.length ≤ C := by
      simp at hlen ⊢; omega
    rw [ih (sv ++ [(p1, p2)]) hnd2 hlen2]
    simp

theorem insertAll_heap_fresh {K V : Type} [DecidableEq K] {C : Nat} :
    ∀ (l h : List (K × V)),
      (h.map Prod.fst ++ l.map Prod.fst).Nodup →
      SmallMap.insertAll (C := C) ⟨MapData.Heap h⟩ l = ⟨MapData.Heap (h ++ l)⟩ := by
  intro l
  induction l with
  | nil => intro h _; simp [insertAll_nil]
  | cons p t ih =>
    intro h hnd
    obtain ⟨p1, p2⟩ := p
    have hfresh : p1 ∉ h.map Prod.fst := by
      simp only [List.map_cons, List.nodup_append, List.nodup_cons,
        List.disjoint_left] at hnd
      intro hmem
      exact hnd.2.2 hmem (by simp)
    rw [insertAll_cons]
    rw [insert_heap h p1 p2]
    rw [imInsert_fresh p2 hfresh]
    have hnd2 : ((h ++ [(p1, p2)]).map Prod.fst ++ t.map Prod.fst).Nodup := by
      simp only [List.map_append, List.map_cons, List.map_nil] at hnd ⊢
      simpa [List.append_assoc] using hnd
    rw [ih (h ++ [(p1, p2)]) hnd2]
    simp

/-! Claim theorems. -/

/-- Claim C1.  The claim says an insert of an already-present key into an
Inline map always replaces in place and keeps the map Inline, the
transition firing only for a new key.  The code (src/src/small_map.rs
lines 211-217) tests `sv.len() + 1 > C` before looking for the key, so a
full inline buffer moves to the heap even when the key exists.  Evaluated
here at the repository's own test vector (src/src/small_set.rs, test
`insert_tests`, case "overwrite existing key/value, stay inline"):
a capacity-3 map holding keys 10, 5, 86 inline, inserting existing key 5.
The map starts Inline and contains 5, yet after the insert it is no longer
Inline — while the previous value is still returned. -/
theorem insert_full_inline_existing_key_moves_to_heap :
    ((⟨MapData.Inline [((10 : Nat), ()), (5, ()), (86, ())]⟩ :
        SmallMap Nat Unit 3).is_inline = true) ∧
    ((⟨MapData.Inline [((10 : Nat), ()), (5, ()), (86, ())]⟩ :
        SmallMap Nat Unit 3).get 5 = some ()) ∧
    (((⟨MapData.Inline [((10 : Nat), ()), (5, ()), (86, ())]⟩ :
        SmallMap Nat Unit 3).insert 5 ()).1.is_inline = false) ∧
    (((⟨MapData.Inline [((10 : Nat), ()), (5, ()), (86, ())]⟩ :
        SmallMap Nat Unit 3).insert 5 ()).2 = some ()) := by
  decide

/-- Claim C7.  A set literal with the repeated value 0 built through the
general construction path (`smallset!`, ordinary inserts) silently
deduplicates to a single element, while the known-unique fast path
(`smallset_inline!`) fails its debug assertion (modelled by `none`)
instead of deduplicating. -/
theorem set_literal_duplicates :
    (smallsetLitGeneral 10 [(0 : Nat), 0]).len = 1 ∧
    smallsetLitInline [(0 : Nat), 0] = none := by
  decide

/-- Claim C9.  Immediately after `insert(k, v)`, `get(&k)` returns the
just-inserted value, on every path: inline update in place, inline append,
the inline-to-heap transition, and the heap update or append. -/
theorem get_after_insert {K V : Type} [DecidableEq K] {C : Nat}
    (m : SmallMap K V C) (k : K) (v : V) :
    (m.insert k v).1.get k = some v := by
  obtain ⟨d⟩ := m
  cases d with
  | Inline sv =>
    by_cases hble : C < sv.length + 1
    · rw [insert_inline_overflow sv k v hble]
      simp [SmallMap.get, imGet_imInsert_self]
    · rw [insert_inline_no_overflow sv k v (by omega)]
      simp [SmallMap.get, imGet_svInsert_self]
  | Heap h =>
    rw [insert_heap h k v]
    simp [SmallMap.get, imGet_imInsert_self]

/-- Witness for claim C9 at a concrete input: inserting key 1 with value 9
into the capacity-1 inline map holding key 0 (which forces the transition)
makes `get 1` return 9. -/
theorem get_after_insert_witness :
    (((⟨MapData.Inline [((0 : Nat), (7 : Nat))]⟩ : SmallMap Nat Nat 1).insert
        1 9).1.get 1 = some 9) :=
  get_after_insert (⟨MapData.Inline [((0 : Nat), (7 : Nat))]⟩ : SmallMap Nat Nat 1) 1 9

/-- Claim C8.  `get_index(i)` returns the pair at insertion-order position
`i` of the iteration sequence when `i` is in bounds and `none` when out of
bounds, in both representations; the array-like `Index` accessor
(`indexOp`) yields `none` — the model of its "SmallMap: index out of
bounds" panic — exactly on the out-of-bounds positions. -/
theorem get_index_bounds_contract {K V : Type} [DecidableEq K] {C : Nat}
    (m : SmallMap K V C) (i : Nat) :
    m.get_index i = m.iter.get? i ∧
    ((m.get_index i).isSome ↔ i < m.len) ∧
    (m.indexOp i = none ↔ m.len ≤ i) := by
  have key : ∀ (l : List (K × V)),
      ((l.get? i).isSome ↔ i < l.length) ∧
      ((l.get? i).map Prod.snd = none ↔ l.length ≤ i) := by
    intro l
    constructor
    · constructor
      · intro hs
        by_contra hn
        rw [List.get?_eq_none.mpr (by omega)] at hs
        simp at hs
      · intro hlt
        rw [List.get?_eq_get hlt]
        simp
    · constructor
      · intro hn
        by_contra hlt
        rw [List.get?_eq_get (by omega)] at hn
        simp at hn
      · intro hle
        rw [List.get?_eq_none.mpr hle]
        rfl
  obtain ⟨d⟩ := m
  cases d with
  | Inline sv =>
    refine ⟨?_, ?_, ?_⟩
    · by_cases hlt : i < sv.length
      · simp [SmallMap.get_index, SmallMap.iter, hlt]
      · simp only [SmallMap.get_index, SmallMap.iter, if_neg hlt]
        rw [List.get?_eq_none.mpr (by omega)]
    · by_cases hlt : i < sv.length
      · simp [SmallMap.get_index, SmallMap.len, hlt, (key sv).1]
      · simp [SmallMap.get_index, SmallMap.len, hlt]
    · by_cases hlt : i < sv.length
      · have h2 := (key sv).2
        simp only [SmallMap.indexOp, SmallMap.get_index, SmallMap.len, if_pos hlt]
        exact h2
      · simp [SmallMap.indexOp, SmallMap.get_index, SmallMap.len, hlt]
        omega
  | Heap h =>
    refine ⟨rfl, ?_, ?_⟩
    · have h1 := (key h).1
      simp only [SmallMap.get_index, SmallMap.len]
      exact h1
    · have h2 := (key h).2
      simp only [SmallMap.indexOp, SmallMap.get_index, SmallMap.len]
      exact h2

/-- Witness for claim C8 at a concrete input: a heap map with two pairs,
position 1 in bounds and position 5 out of bounds. -/
theorem get_index_bounds_contract_witness :
    ((⟨MapData.Heap [((0 : Nat), (1 : Nat)), (2, 3)]⟩ :
        SmallMap Nat Nat 1).get_index 1 =
      (⟨MapData.Heap [((0 : Nat), (1 : Nat)), (2, 3)]⟩ :
        SmallMap Nat Nat 1).iter.get? 1) ∧
    ((⟨MapData.Heap [((0 : Nat), (1 : Nat)), (2, 3)]⟩ :
        SmallMap Nat Nat 1).indexOp 5 = none ↔
      (⟨MapData.Heap [((0 : Nat), (1 : Nat)), (2, 3)]⟩ :
        SmallMap Nat Nat 1).len ≤ 5) :=
  ⟨(get_index_bounds_contract
      (⟨MapData.Heap [((0 : Nat), (1 : Nat)), (2, 3)]⟩ : SmallMap Nat Nat 1) 1).1,
    (get_index_bounds_contract
      (⟨MapData.Heap [((0 : Nat), (1 : Nat)), (2, 3)]⟩ : SmallMap Nat Nat 1) 5).2.2⟩

/-- Claim C5.  Map equality is representation-sensitive: it can hold only
between two maps in the same representation (first conjunct), in which case
it is the representation-level comparison (SmallVec equality on two Inline
maps, the heap structure's equality on two Heap maps); and a concrete
Inline map and Heap map with identical pairs in identical insertion order
compare as unequal. -/
theorem eq_is_representation_sensitive {K V : Type}
    [DecidableEq K] [DecidableEq V] {C : Nat} :
    (∀ (m₁ m₂ : SmallMap K V C),
      m₁.beq m₂ = true → m₁.is_inline = m₂.is_inline) ∧
    (∀ (l r : List (K × V)),
      SmallMap.beq (C := C) ⟨MapData.Inline l⟩ ⟨MapData.Inline r⟩ = true → l = r) ∧
    (∀ (l r : List (K × V)),
      SmallMap.beq (C := C) ⟨MapData.Heap l⟩ ⟨MapData.Heap r⟩ = true →
        imEq l r = true) ∧
    (SmallMap.beq (C := 2) ⟨MapData.Inline [((0 : Nat), (1 : Nat)), (2, 3)]⟩
        ⟨MapData.Heap [((0 : Nat), (1 : Nat)), (2, 3)]⟩ = false ∧
      SmallMap.iter (C := 2) ⟨MapData.Inline [((0 : Nat), (1 : Nat)), (2, 3)]⟩ =
        SmallMap.iter (C := 2) ⟨MapData.Heap [((0 : Nat), (1 : Nat)), (2, 3)]⟩) := by
  refine ⟨?_, ?_, fun l r h => h, by decide⟩
  · intro m₁ m₂ h
    obtain ⟨d₁⟩ := m₁
    obtain ⟨d₂⟩ := m₂
    cases d₁ <;> cases d₂ <;>
      simp_all [SmallMap.beq, MapData.beqData, SmallMap.is_inline]
  · intro l r h
    simpa [SmallMap.beq, MapData.beqData] using h

/-- Witness for claim C5 at concrete inputs: two equal Inline maps have
equal representations, and beq on two concrete Inline lists implies list
equality. -/
theorem eq_is_representation_sensitive_witness :
    (⟨MapData.Inline [((0 : Nat), (1 : Nat))]⟩ : SmallMap Nat Nat 2).is_inline =
      (⟨MapData.Inline [((0 : Nat), (1 : Nat))]⟩ : SmallMap Nat Nat 2).is_inline ∧
    ([((0 : Nat), (1 : Nat))] : List (Nat × Nat)) = [((0 : Nat), (1 : Nat))] :=
  ⟨(eq_is_representation_sensitive (K := Nat) (V := Nat) (C := 2)).1
      ⟨MapData.Inline [((0 : Nat), (1 : Nat))]⟩
      ⟨MapData.Inline [((0 : Nat), (1 : Nat))]⟩ (by decide),
    (eq_is_representation_sensitive (K := Nat) (V := Nat) (C := 2)).2.1
      [((0 : Nat), (1 : Nat))] [((0 : Nat), (1 : Nat))] (by decide)⟩

/-- Claim C6.  `entry(k)` returns an Occupied handle with the index found
by `get_index_of` or a Vacant handle with the key; `or_insert` is a no-op
on Occupied and a single `insert(key, default)` on Vacant; `and_modify` on
Vacant returns map and handle untouched. -/
theorem entry_api_contract {K V : Type} [DecidableEq K] {C : Nat}
    (m : SmallMap K V C) (k : K) (d : V) (f : V → V) :
    (∀ i, m.get_index_of k = some i → m.entry k = Entry.Occupied i) ∧
    (m.get_index_of k = none → m.entry k = Entry.Vacant k) ∧
    (∀ i, Entry.or_insert m (Entry.Occupied i) d = m) ∧
    (Entry.or_insert m (Entry.Vacant k) d = (m.insert k d).1) ∧
    (Entry.and_modify m (Entry.Vacant k) f = some (m, Entry.Vacant k)) := by
  refine ⟨?_, ?_, fun i => rfl, rfl, rfl⟩
  · intro i h
    simp [SmallMap.entry, h]
  · intro h
    simp [SmallMap.entry, h]

/-- Witness for claim C6 at a concrete input: looking up the absent key 1
in the inline map holding key 0 yields a Vacant handle, and `or_insert` on
that handle is one `insert` against the map. -/
theorem entry_api_contract_witness :
    (⟨MapData.Inline [((0 : Nat), (5 : Nat))]⟩ : SmallMap Nat Nat 2).entry 1 =
      Entry.Vacant 1 ∧
    Entry.or_insert (⟨MapData.Inline [((0 : Nat), (5 : Nat))]⟩ : SmallMap Nat Nat 2)
      (Entry.Vacant 1) 7 =
      ((⟨MapData.Inline [((0 : Nat), (5 : Nat))]⟩ : SmallMap Nat Nat 2).insert 1 7).1 :=
  ⟨(entry_api_contract
      (⟨MapData.Inline [((0 : Nat), (5 : Nat))]⟩ : SmallMap Nat Nat 2) 1 7 id).2.1
      (by decide),
    (entry_api_contract
      (⟨MapData.Inline [((0 : Nat), (5 : Nat))]⟩ : SmallMap Nat Nat 2) 1 7 id).2.2.2.1⟩

/-- Claim C2.  Starting from an empty map of inline capacity `C`, after
inserting exactly `C` pairwise-distinct keys the map is Inline with length
`C`; after inserting a `(C+1)`-th distinct key it is no longer Inline and
its length is `C + 1`. -/
theorem representation_threshold {K V : Type} [DecidableEq K] {C : Nat}
    (ps : List (K × V)) (hn : (ps.map Prod.fst).Nodup)
    (hl : ps.length = C + 1) :
    ((SmallMap.new K V C).insertAll (ps.take C)).is_inline = true ∧
    ((SmallMap.new K V C).insertAll (ps.take C)).len = C ∧
    ((SmallMap.new K V C).insertAll ps).is_inline = false ∧
    ((SmallMap.new K V C).insertAll ps).len = C + 1 := by
  have htakeLen : (ps.take C).length = C := by
    rw [List.length_take]
    omega
  have hnTake : ((ps.take C).map Prod.fst).Nodup := by
    rw [List.map_take]
    exact hn.sublist (List.take_sublist C (ps.map Prod.fst))
  have h1 : (SmallMap.new K V C).insertAll (ps.take C) =
      ⟨MapData.Inline (ps.take C)⟩ := by
    have := insertAll_inline_fresh (C := C) (ps.take C) []
      (by simpa using hnTake) (by simp [htakeLen])
    simpa [SmallMap.new] using this
  obtain ⟨d, hd⟩ : ∃ d, ps.drop C = [d] := by
    have hlen : (ps.drop C).length = 1 := by
      rw [List.length_drop]
      omega
    cases hdp : ps.drop C with
    | nil =>
      rw [hdp] at hlen
      simp at hlen
    | cons x t =>
      rw [hdp] at hlen
      simp only [List.length_cons, Nat.add_left_inj] at hlen
      have ht : t = [] := List.length_eq_zero.mp (by omega)
      exact ⟨x, by rw [ht]⟩
  have hsplit : ps.take C ++ [d] = ps := by
    rw [← hd]
    exact List.take_append_drop C ps
  have hnSplit : ((ps.take C).map Prod.fst ++ [d.1]).Nodup := by
    have := hn
    rw [← hsplit, List.map_append] at this
    simpa using this
  have hfresh : d.1 ∉ (ps.take C).map Prod.fst := by
    rw [List.nodup_append] at hnSplit
    intro hmem
    exact hnSplit.2.2 hmem (by simp)
  have h2' : (SmallMap.new K V C).insertAll (ps.take C ++ [d]) =
      ⟨MapData.Heap (ps.take C ++ [(d.1, d.2)])⟩ := by
    rw [insertAll_append, h1]
    rw [show ([d] : List (K × V)) = d :: [] from rfl, insertAll_cons]
    rw [insert_inline_overflow (ps.take C) d.1 d.2 (by omega)]
    rw [imFromList_nodup _ hnTake]
    rw [imInsert_fresh d.2 hfresh]
    simp [insertAll_nil]
  have h2 : (SmallMap.new K V C).insertAll ps =
      ⟨MapData.Heap (ps.take C ++ [(d.1, d.2)])⟩ := by
    conv_lhs => rw [← hsplit]
    exact h2'
  refine ⟨by rw [h1]; rfl, ?_, by rw [h2]; rfl, ?_⟩
  · rw [h1]
    simp [SmallMap.len, htakeLen]
  · rw [h2]
    simp [SmallMap.len, htakeLen]

/-- Witness for claim C2 at a concrete input: capacity 1, the two distinct
pairs (0, 0) then (1, 1). -/
theorem representation_threshold_witness :
    ((SmallMap.new Nat Nat 1).insertAll
        ([((0 : Nat), (0 : Nat)), (1, 1)].take 1)).is_inline = true ∧
    ((SmallMap.new Nat Nat 1).insertAll
        ([((0 : Nat), (0 : Nat)), (1, 1)].take 1)).len = 1 ∧
    ((SmallMap.new Nat Nat 1).insertAll
        [((0 : Nat), (0 : Nat)), (1, 1)]).is_inline = false ∧
    ((SmallMap.new Nat Nat 1).insertAll
        [((0 : Nat), (0 : Nat)), (1, 1)]).len = 1 + 1 :=
  representation_threshold [((0 : Nat), (0 : Nat)), (1, 1)] (by decide) (by decide)

/-- Claim C3.  For any sequence of pairwise-distinct-key inserts that
crosses the capacity threshold, the iteration sequence observed before the
transition is the inserted prefix in insertion order, and after the
transition (the map now on the heap) the iteration sequence is exactly the
whole original insertion sequence. -/
theorem order_preserved_across_transition {K V : Type} [DecidableEq K]
    {C : Nat} (ps : List (K × V)) (hn : (ps.map Prod.fst).Nodup)
    (hC : C < ps.length) :
    ((SmallMap.new K V C).insertAll (ps.take C)).iter = ps.take C ∧
    ((SmallMap.new K V C).insertAll (ps.take C)).is_inline = true ∧
    ((SmallMap.new K V C).insertAll ps).iter = ps ∧
    ((SmallMap.new K V C).insertAll ps).is_inline = false := by
  have htakeLen : (ps.take C).length = C := by
    rw [List.length_take]
    omega
  have hnTake : ((ps.take C).map Prod.fst).Nodup := by
    rw [List.map_take]
    exact hn.sublist (List.take_sublist C (ps.map Prod.fst))
  have h1 : (SmallMap.new K V C).insertAll (ps.take C) =
      ⟨MapData.Inline (ps.take C)⟩ := by
    have := insertAll_inline_fresh (C := C) (ps.take C) []
      (by simpa using hnTake) (by simp [htakeLen])
    simpa [SmallMap.new] using this
  obtain ⟨d, r, hd⟩ : ∃ d r, ps.drop C = d :: r := by
    cases hdp : ps.drop C with
    | nil =>
      have : (ps.drop C).length = 0 := by rw [hdp]; rfl
      rw [List.length_drop] at this
      omega
    | cons x t => exact ⟨x, t, rfl⟩
  have hsplit : ps.take C ++ (d :: r) = ps := by
    rw [← hd]
    exact List.take_append_drop C ps
  have hnSplit : ((ps.take C).map Prod.fst ++ (d.1 :: r.map Prod.fst)).Nodup := by
    have := hn
    rw [← hsplit, List.map_append] at this
    simpa using this
  have hfresh : d.1 ∉ (ps.take C).map Prod.fst := by
    rw [List.nodup_append] at hnSplit
    intro hmem
    exact hnSplit.2.2 hmem (by simp)
  have hstep : SmallMap.insertAll (C := C)
      ⟨MapData.Heap (ps.take C ++ [(d.1, d.2)])⟩ r =
      ⟨MapData.Heap ((ps.take C ++ [(d.1, d.2)]) ++ r)⟩ := by
    apply insertAll_heap_fresh
    have : (ps.take C).map Prod.fst ++ (d.1 :: r.map Prod.fst) =
        ((ps.take C ++ [(d.1, d.2)]).map Prod.fst ++ r.map Prod.fst) := by
      simp [List.map_append, List.append_assoc]
    rw [← this]
    exact hnSplit
  have hps2 : (ps.take C ++ [(d.1, d.2)]) ++ r = ps := by
    conv_rhs => rw [← hsplit]
    simp [List.append_assoc]
  have h2' : (SmallMap.new K V C).insertAll (ps.take C ++ (d :: r)) =
      ⟨MapData.Heap ps⟩ := by
    rw [insertAll_append, h1, insertAll_cons]
    rw [insert_inline_overflow (ps.take C) d.1 d.2 (by omega)]
    rw [imFromList_nodup _ hnTake]
    rw [imInsert_fresh d.2 hfresh]
    simp only [hstep, hps2]
  have h2 : (SmallMap.new K V C).insertAll ps = ⟨MapData.Heap ps⟩ := by
    conv_lhs => rw [← hsplit]
    exact h2'
  refine ⟨by rw [h1]; rfl, by rw [h1]; rfl, by rw [h2]; rfl, by rw [h2]; rfl⟩

/-- Witness for claim C3 at the spec's own example: capacity 1, inserting
keys 1, 0, 4, 5 in that order yields iteration order [1, 0, 4, 5] after the
transition at the second insert. -/
theorem order_preserved_across_transition_witness :
    ((SmallMap.new Nat Nat 1).insertAll
        ([((1 : Nat), (7 : Nat)), (0, 1), (4, 9), (5, 1)].take 1)).iter =
      [((1 : Nat), (7 : Nat)), (0, 1), (4, 9), (5, 1)].take 1 ∧
    ((SmallMap.new Nat Nat 1).insertAll
        ([((1 : Nat), (7 : Nat)), (0, 1), (4, 9), (5, 1)].take 1)).is_inline = true ∧
    ((SmallMap.new Nat Nat 1).insertAll
        [((1 : Nat), (7 : Nat)), (0, 1), (4, 9), (5, 1)]).iter =
      [((1 : Nat), (7 : Nat)), (0, 1), (4, 9), (5, 1)] ∧
    ((SmallMap.new Nat Nat 1).insertAll
        [((1 : Nat), (7 : Nat)), (0, 1), (4, 9), (5, 1)]).is_inline = false :=
  order_preserved_across_transition
    [((1 : Nat), (7 : Nat)), (0, 1), (4, 9), (5, 1)] (by decide) (by decide)

/-- Claim C4.  Re-inserting an already-present key, in either
representation (including the full-inline case where the code also
migrates to the heap), returns the previous value, leaves `len()`
unchanged and leaves the key's position in the iteration order
(`get_index_of`) unchanged. -/
theorem insert_existing_key_updates_in_place {K V : Type} [DecidableEq K]
    {C : Nat} (m : SmallMap K V C) (k : K) (vOld vNew : V)
    (hwf : (m.iter.map Prod.fst).Nodup) (hget : m.get k = some vOld) :
    (m.insert k vNew).2 = some vOld ∧
    (m.insert k vNew).1.len = m.len ∧
    (m.insert k vNew).1.get_index_of k = m.get_index_of k := by
  obtain ⟨d⟩ := m
  cases d with
  | Inline sv =>
    have hget' : imGet sv k = some vOld := hget
    have hwf' : (sv.map Prod.fst).Nodup := hwf
    by_cases hb : C < sv.length + 1
    · rw [insert_inline_overflow sv k vNew hb]
      rw [imFromList_nodup sv hwf']
      obtain ⟨h1, h2, h3⟩ := imInsert_found vNew hget'
      exact ⟨h1, h2, h3⟩
    · rw [insert_inline_no_overflow sv k vNew (by omega)]
      obtain ⟨h1, h2, h3⟩ := svInsert_found vNew hget'
      exact ⟨h1, h2, h3⟩
  | Heap hp =>
    have hget' : imGet hp k = some vOld := hget
    rw [insert_heap hp k vNew]
    obtain ⟨h1, h2, h3⟩ := imInsert_found vNew hget'
    exact ⟨h1, h2, h3⟩

/-- Witness for claim C4 at a concrete input: a full capacity-2 inline map
holding keys 0 and 2, re-inserting key 2 (the path that also migrates to
the heap). -/
theorem insert_existing_key_updates_in_place_witness :
    (((⟨MapData.Inline [((0 : Nat), (1 : Nat)), (2, 3)]⟩ :
        SmallMap Nat Nat 2).insert 2 9).2 = some 3) ∧
    (((⟨MapData.Inline [((0 : Nat), (1 : Nat)), (2, 3)]⟩ :
        SmallMap Nat Nat 2).insert 2 9).1.len =
      (⟨MapData.Inline [((0 : Nat), (1 : Nat)), (2, 3)]⟩ :
        SmallMap Nat Nat 2).len) ∧
    (((⟨MapData.Inline [((0 : Nat), (1 : Nat)), (2, 3)]⟩ :
        SmallMap Nat Nat 2).insert 2 9).1.get_index_of 2 =
      (⟨MapData.Inline [((0 : Nat), (1 : Nat)), (2, 3)]⟩ :
        SmallMap Nat Nat 2).get_index_of 2) :=
  insert_existing_key_updates_in_place
    (⟨MapData.Inline [((0 : Nat), (1 : Nat)), (2, 3)]⟩ : SmallMap Nat Nat 2)
    2 3 9 (by decide) (by decide)

/-! Lemmas about `modifyIdx` for the entry-handle frame property. -/

theorem modifyIdx_length {K V : Type} (f : V → V) :
    ∀ (l : List (K × V)) (i : Nat), (modifyIdx f l i).length = l.length := by
  intro l
  induction l with
  | nil => intro i; rfl
  | cons p t ih =>
    intro i
    cases i with
    | zero => rfl
    | succ n => simp [modifyIdx, ih n]

theorem modifyIdx_map_fst {K V : Type} (f : V → V) :
    ∀ (l : List (K × V)) (i : Nat),
      (modifyIdx f l i).map Prod.fst = l.map Prod.fst := by
  intro l
  induction l with
  | nil => intro i; rfl
  | cons p t ih =>
    intro i
    cases i with
    | zero => rfl
    | succ n => simp [modifyIdx, ih n]

theorem modifyIdx_get?_self {K V : Type} (f : V → V) :
    ∀ (l : List (K × V)) (i : Nat),
      (modifyIdx f l i).get? i = (l.get? i).map (fun p => (p.1, f p.2)) := by
  intro l
  induction l with
  | nil => intro i; rfl
  | cons p t ih =>
    intro i
    cases i with
    | zero => rfl
    | succ n =>
      simp only [modifyIdx, List.get?]
      exact ih n

theorem modifyIdx_get?_ne {K V : Type} (f : V → V) :
    ∀ (l : List (K × V)) (i j : Nat), j ≠ i →
      (modifyIdx f l i).get? j = l.get? j := by
  intro l
  induction l with
  | nil => intro i j _; rfl
  | cons p t ih =>
    intro i j hne
    cases i with
    | zero =>
      cases j with
      | zero => exact absurd rfl hne
      | succ jn => rfl
    | succ n =>
      cases j with
      | zero => rfl
      | succ jn =>
        simp only [modifyIdx, List.get?]
        exact ih n jn (fun hh => hne (by rw [hh]))

/-- Claim C10.  `and_modify(f)` on an Occupied handle with in-bounds index
`i` succeeds and returns an Occupied handle with the same index, and the
resulting map differs from the original only in the value at position `i`,
which becomes `f` of the old value: representation, length, the key
sequence, and every other position of the iteration sequence are
unchanged. -/
theorem and_modify_frame {K V : Type} {C : Nat}
    (m : SmallMap K V C) (i : Nat) (f : V → V) (h : i < m.len) :
    (Entry.and_modify m (Entry.Occupied i) f).isSome = true ∧
    ∀ m' e, Entry.and_modify m (Entry.Occupied i) f = some (m', e) →
      e = Entry.Occupied i ∧
      m'.is_inline = m.is_inline ∧
      m'.len = m.len ∧
      m'.keys = m.keys ∧
      m'.iter.get? i = (m.iter.get? i).map (fun p => (p.1, f p.2)) ∧
      ∀ j, j ≠ i → m'.iter.get? j = m.iter.get? j := by
  obtain ⟨d⟩ := m
  cases d with
  | Inline sv =>
    have hlt : i < sv.length := h
    constructor
    · simp [Entry.and_modify, SmallMap.get_index_modify, hlt]
    · intro m' e heq
      simp only [Entry.and_modify, SmallMap.get_index_modify, if_pos hlt,
        Option.map_some', Option.some.injEq, Prod.mk.injEq] at heq
      obtain ⟨hm, he⟩ := heq
      subst hm
      subst he
      refine ⟨rfl, rfl, ?_, ?_, ?_, ?_⟩
      · exact modifyIdx_length f sv i
      · exact modifyIdx_map_fst f sv i
      · exact modifyIdx_get?_self f sv i
      · exact fun j hj => modifyIdx_get?_ne f sv i j hj
  | Heap hp =>
    have hlt : i < hp.length := h
    constructor
    · simp [Entry.and_modify, SmallMap.get_index_modify, hlt]
    · intro m' e heq
      simp only [Entry.and_modify, SmallMap.get_index_modify, if_pos hlt,
        Option.map_some', Option.some.injEq, Prod.mk.injEq] at heq
      obtain ⟨hm, he⟩ := heq
      subst hm
      subst he
      refine ⟨rfl, rfl, ?_, ?_, ?_, ?_⟩
      · exact modifyIdx_length f hp i
      · exact modifyIdx_map_fst f hp i
      · exact modifyIdx_get?_self f hp i
      · exact fun j hj => modifyIdx_get?_ne f hp i j hj

/-- Witness for claim C10 at a concrete input: incrementing the value at
position 0 of the inline map with pairs (0, 1) and (2, 3) leaves length,
keys and position 1 unchanged and maps position 0 to (0, 2). -/
theorem and_modify_frame_witness :
    (⟨MapData.Inline [((0 : Nat), (2 : Nat)), (2, 3)]⟩ :
        SmallMap Nat Nat 2).len =
      (⟨MapData.Inline [((0 : Nat), (1 : Nat)), (2, 3)]⟩ :
        SmallMap Nat Nat 2).len ∧
    (⟨MapData.Inline [((0 : Nat), (2 : Nat)), (2, 3)]⟩ :
        SmallMap Nat Nat 2).keys =
      (⟨MapData.Inline [((0 : Nat), (1 : Nat)), (2, 3)]⟩ :
        SmallMap Nat Nat 2).keys ∧
    (⟨MapData.Inline [((0 : Nat), (2 : Nat)), (2, 3)]⟩ :
        SmallMap Nat Nat 2).iter.get? 1 =
      (⟨MapData.Inline [((0 : Nat), (1 : Nat)), (2, 3)]⟩ :
        SmallMap Nat Nat 2).iter.get? 1 := by
  have happ := (and_modify_frame
      (⟨MapData.Inline [((0 : Nat), (1 : Nat)), (2, 3)]⟩ : SmallMap Nat Nat 2)
      0 (fun v => v + 1) (by decide)).2
      (⟨MapData.Inline [((0 : Nat), (2 : Nat)), (2, 3)]⟩ : SmallMap Nat Nat 2)
      (Entry.Occupied 0) (by decide)
  exact ⟨happ.2.2.1, happ.2.2.2.1, happ.2.2.2.2.2 1 (by decide)⟩
